import Mathlib

/-!
Shallow embedding of the node-recommendation project (similarity networks,
rated networks, greedy / probabilistic recommendation, profile learning).

JS numbers are modelled as rationals (`ℚ`); the only places where NaN /
undefined can arise in the verified code paths are modelled explicitly
(`Option ℚ` for a possibly-NaN intermediate value, `JsNum` for the result of
`Math.sqrt`).  A thrown JS exception is modelled by `Except.error`; Node's
`assert` (module "assert") throws on a false condition, while `console.assert`
(module "console") only logs and never throws, which is modelled by
`consoleAssert` below.
-/

/-- JavaScript `Array.prototype.reduce` without an initial value: throws on an
empty array (modelled as `none`), otherwise folds from the first element. -/
def reduce1 {α : Type} (f : α → α → α) : List α → Option α
  | [] => none
  | x :: xs => some (xs.foldl f x)

/-- Node's `console.assert` (matrix.ts does `import { assert } from "console"`):
it logs a message when the condition is falsy but never throws, so as a state
transformer it always succeeds, whatever the condition. -/
def consoleAssert (_cond : Bool) : Except String Unit := Except.ok ()

/-- Node's `assert` from the "assert" module (used by rated-network.ts and
profile-learner.ts): throws an AssertionError when the condition is false. -/
def nodeAssert (cond : Bool) (msg : String) : Except String Unit :=
  if cond then Except.ok () else Except.error msg

/-- Result of JavaScript `Math.sqrt`: `nan` for a NaN or negative argument,
`sqrtVal q` for the (possibly irrational, hence kept symbolic) nonnegative
square root of the rational `q ≥ 0`. -/
inductive JsNum where
  | nan : JsNum
  | sqrtVal : (q : ℚ) → JsNum
deriving DecidableEq

/-- JavaScript `Math.sqrt` applied to a possibly-NaN (`none`) rational. -/
def mathSqrt : Option ℚ → JsNum
  | none => JsNum.nan
  | some q => if q < 0 then JsNum.nan else JsNum.sqrtVal q

/-- Loop body of matrix.ts `vectorDist`: `for (i < v1.length) distSq +=
(v1[i] - v2[i])**2`.  When `v2` is shorter than `v1`, `v2[i]` is `undefined`,
the subtraction yields NaN and NaN propagates through the sum; a NaN running
sum is modelled as `none`. -/
def vectorDistSqJS : List ℚ → List ℚ → Option ℚ
  | [], _ => some 0
  | _ :: _, [] => none
  | a :: as, b :: bs => (vectorDistSqJS as bs).map (fun s => (a - b) ^ 2 + s)

/-- Value computed by matrix.ts `vectorDist` (the Euclidean distance
`Math.sqrt(distSq)`), before considering the (no-op) assertion. -/
def vectorDistVal (v1 v2 : List ℚ) : JsNum :=
  mathSqrt (vectorDistSqJS v1 v2)

/-- matrix.ts `vectorDist(v1, v2)`: runs `assert(v1.length === v2.length, …)` —
which is `console.assert` and never throws — then returns
`Math.sqrt(distSq)`.  The `Except` layer carries JS exceptions; this function
never uses it. -/
def vectorDist (v1 v2 : List ℚ) : Except String JsNum := do
  let _ ← consoleAssert (v1.length == v2.length)
  pure (vectorDistVal v1 v2)

/-- Inner loop of matrix.ts `isEqual` over one row of `m1` and the
corresponding (existing) row of `m2`: `if (m1[i][j] !== m2[i][j]) return
false`.  When `m2`'s row is shorter, `m2[i][j]` is `undefined` and the strict
inequation against a number is true, so the result is `false`; when `m1`'s row
ends, the remaining entries of `m2`'s row are never inspected. -/
def rowEqJS : List ℚ → List ℚ → Bool
  | [], _ => true
  | _ :: _, [] => false
  | a :: as, b :: bs => if a = b then rowEqJS as bs else false

/-- Row recursion of matrix.ts `isEqual`: iterates `i` over `m1.length`.  When
`m2[i]` is `undefined` (m2 has fewer rows) the element access `m2[i][j]` throws
a TypeError — but only if `m1[i]` is nonempty, since otherwise the inner loop
body never runs. -/
def isEqualRows : List (List ℚ) → List (List ℚ) → Except String Bool
  | [], _ => Except.ok true
  | r1 :: m1, [] =>
    if r1.isEmpty then isEqualRows m1 [] else Except.error "TypeError"
  | r1 :: m1, r2 :: m2 =>
    if rowEqJS r1 r2 then isEqualRows m1 m2 else Except.ok false

/-- matrix.ts `isEqual(m1, m2)`: two `console.assert` calls (no-ops; the second
one even uses `=` instead of `===`, so its condition is the truthiness of the
assigned row length) followed by the double loop over `m1`'s index range. -/
def isEqual (m1 m2 : List (List ℚ)) : Except String Bool := do
  let _ ← consoleAssert (m1.length == m2.length)
  let _ ← consoleAssert (m2.all (fun v => !v.isEmpty))
  isEqualRows m1 m2

/-- Entry type produced by profile-learner.ts `cleanRatings`: the expression
`(r === null) ? 0 : r` has type `number | Rating[]`, i.e. either the number 0
or a whole rating vector. -/
inductive CleanedRow where
  | num : (q : ℚ) → CleanedRow
  | arr : (r : List (Option ℚ)) → CleanedRow
deriving DecidableEq

/-- Strict equality test `r === null` applied to a `Rating[]` array value: an
array is an object reference and is never strictly equal to `null`. -/
def arrayIsNull (_r : List (Option ℚ)) : Bool := false

/-- profile-learner.ts `ProfileLearner.cleanRatings`: maps
`(r) => (r === null) ? 0 : r` over the LIST OF RATING VECTORS (one whole
`Rating[]` per user, taken from `u.ratedNetwork.ratings`), not over the
entries of each vector.  A user is modelled by their rating vector
(`List (Option ℚ)`, `none` = unrated). -/
def cleanRatings (userRatings : List (List (Option ℚ))) : List CleanedRow :=
  userRatings.map (fun r => if arrayIsNull r then CleanedRow.num 0 else CleanedRow.arr r)

/-- C5: the spec demands that `vectorDistance` on vectors of different lengths
"fails with a precondition error"; the code's `assert` comes from "console"
and never throws, so `vectorDist` always returns a value.  In particular on
the mismatched input `v1 = [0]`, `v2 = [0, 5]` it returns `Math.sqrt(0)`
instead of failing. -/
theorem vectorDist_never_fails :
    (∀ v1 v2 : List ℚ, ∃ r : JsNum, vectorDist v1 v2 = Except.ok r) ∧
    vectorDist [0] [0, 5] = Except.ok (JsNum.sqrtVal 0) := by
  constructor
  · intro v1 v2
    exact ⟨vectorDistVal v1 v2, rfl⟩
  · show Except.ok (vectorDistVal [0] [0, 5]) = _
    simp [vectorDistVal, vectorDistSqJS, mathSqrt]

/-- C6: the spec demands `matrixEquals(m1, m2)` be true only when the two
matrices have identical dimensions, but the code only scans `m1`'s index
range (its dimension asserts are no-op `console.assert` calls), so for
`m1 = [[1]]` and `m2 = [[1], [2]]` — different dimensions — it returns `true`.
The reflexivity half of the claim does hold: `isEqual M M` is always `ok true`. -/
theorem isEqual_ignores_extra_rows :
    isEqual [[1]] [[1], [2]] = Except.ok true ∧
    ∀ m : List (List ℚ), isEqual m m = Except.ok true := by
  have hrow : ∀ r : List ℚ, rowEqJS r r = true := by
    intro r
    induction r with
    | nil => rfl
    | cons a as ih => simp [rowEqJS, ih]
  have hrows : ∀ m : List (List ℚ), isEqualRows m m = Except.ok true := by
    intro m
    induction m with
    | nil => rfl
    | cons r m ih => simp [isEqualRows, hrow, ih]
  constructor
  · show (isEqualRows [[1]] [[1], [2]] : Except String Bool) = Except.ok true
    simp [isEqualRows, rowEqJS]
  · intro m
    show (isEqualRows m m : Except String Bool) = Except.ok true
    exact hrows m

/-- C2: `cleanRatings` is documented to replace every `null` rating by 0, but
its map runs over the list of whole rating vectors (`r` is a `Rating[]`, never
`=== null`), so every vector is passed through unchanged and `null` entries
survive.  On a single user with ratings `[null, 5]` the result still contains
the `null`. -/
theorem cleanRatings_keeps_nulls :
    (∀ us : List (List (Option ℚ)), cleanRatings us = us.map CleanedRow.arr) ∧
    cleanRatings [[none, some 5]] = [CleanedRow.arr [none, some 5]] := by
  constructor
  · intro us
    simp [cleanRatings, arrayIsNull]
  · simp [cleanRatings, arrayIsNull]

/-- matrix.ts `twoDimArray` / `twoDimensionalArray`: an n-by-m array filled
with a default value. -/
def twoDimensionalArray (n m : Nat) (x : ℚ) : List (List ℚ) :=
  List.replicate n (List.replicate m x)

/-- JavaScript read `mat[i][j]` for an in-range access (out-of-range indices
return the defaults, which the verified code paths never rely on). -/
def get2 (mat : List (List ℚ)) (i j : Nat) : ℚ :=
  (mat.getD i []).getD j 0

/-- JavaScript write `mat[i][j] = x` for an in-range index pair (out-of-range
writes are dropped; the verified code paths only write in range). -/
def set2 (mat : List (List ℚ)) (i j : Nat) (x : ℚ) : List (List ℚ) :=
  mat.set i ((mat.getD i []).set j x)

/-- Body of the double loop of profile-learner.ts
`meanVectorsToSimilarityMatrix`: computes `simVal = similarityFunction
(meanVector[i], meanVector[j])` and stores it at both `(i, j)` and `(j, i)`. -/
def symStep (sim : ℚ → ℚ → ℚ) (v : List ℚ) (mat : List (List ℚ)) (i j : Nat) :
    List (List ℚ) :=
  set2 (set2 mat i j (sim (v.getD i 0) (v.getD j 0))) j i (sim (v.getD i 0) (v.getD j 0))

/-- profile-learner.ts `ProfileLearner.meanVectorsToSimilarityMatrix`,
parametric in the similarity function (the class field `similarityFunction`,
by default `exp(-0.1 (r1-r2)^2)`): starts from an all-zero n-by-n matrix and
fills only the off-diagonal pairs `i < j` symmetrically.  Both
`KMeansLearner.learnProfile` and `AverageLearner.learnProfile` build every
returned profile through this function. -/
def meanVectorsToSimilarityMatrix (sim : ℚ → ℚ → ℚ) (v : List ℚ) :
    List (List ℚ) :=
  (List.range (v.length - 1)).foldl
    (fun mat i =>
      (List.range' (i + 1) (v.length - 1 - i)).foldl
        (fun mat2 j => symStep sim v mat2 i j) mat)
    (twoDimensionalArray v.length v.length 0)

/-- rated-network.ts `RatedNetwork`: an adjacency (similarity) matrix, one
rating per node (`none` = unrated), and the value bounds of the matrix. -/
structure RatedNetwork where
  nNodes : Nat
  network : List (List ℚ)
  ratings : List (Option ℚ)
  lower : ℚ
  upper : ℚ
deriving DecidableEq

/-- Row-by-row reduction used by `twoDimReduce` (the `matrix.map((row) =>
row.reduce(...))` part): the per-row reduces run left to right and the first
empty row throws. -/
def reduceRows (g : ℚ → ℚ → ℚ) : List (List ℚ) → Option (List ℚ)
  | [] => some []
  | row :: rest => do
    let r ← reduce1 g row
    let rs ← reduceRows g rest
    pure (r :: rs)

/-- matrix.ts `twoDimReduce`: reduces every row, then reduces the row results;
`Array.reduce` without initial value throws on an empty array (`none`). -/
def twoDimReduce (mat : List (List ℚ)) (f : ℚ → ℚ → Bool) : Option ℚ := do
  let rowReds ← reduceRows (fun a b => if f a b then a else b) mat
  reduce1 (fun a b => if f a b then a else b) rowReds

/-- Bound defaulting `if (lower === null) lower =
Math.floor(twoDimReduce(network, (e1, e2) => e1 < e2))` of the `RatedNetwork`
constructor; the inner `reduce` throws on an empty matrix. -/
def derivedLower (network : List (List ℚ)) (lower0 : Option ℚ) : Except String ℚ :=
  match lower0 with
  | some l => Except.ok l
  | none =>
    match twoDimReduce network (fun a b => a < b) with
    | some q => Except.ok ((⌊q⌋ : ℤ) : ℚ)
    | none => Except.error "TypeError"

/-- Bound defaulting `if (upper === null) upper =
Math.ceil(twoDimReduce(network, (e1, e2) => e1 > e2))`. -/
def derivedUpper (network : List (List ℚ)) (upper0 : Option ℚ) : Except String ℚ :=
  match upper0 with
  | some u => Except.ok u
  | none =>
    match twoDimReduce network (fun a b => a > b) with
    | some q => Except.ok ((⌈q⌉ : ℤ) : ℚ)
    | none => Except.error "TypeError"

/-- rated-network.ts `RatedNetwork` constructor: shape assertions (Node's
throwing `assert`), then bounds defaulting — `floor` of the matrix minimum /
`ceil` of the maximum when not declared — and the `lower < upper` assertion.
For an empty matrix `nCols[0]` is `undefined` (modelled by `Option`), so the
shape assertion fails. -/
def mkRatedNetwork (network : List (List ℚ)) (ratings : List (Option ℚ))
    (lower0 upper0 : Option ℚ) : Except String RatedNetwork := do
  let nRows := network.length
  let nCols := network.map List.length
  let _ ← nodeAssert (nCols.all (fun c => nCols.head? == some c)) "Ragged columns"
  let _ ← nodeAssert (nCols.head? == some nRows) "Adjacency matrix has invalid shape"
  let _ ← nodeAssert (ratings.length == nRows) "rating and network must have compatible size"
  let lower : ℚ ← derivedLower network lower0
  let upper : ℚ ← derivedUpper network upper0
  let _ ← nodeAssert (decide (lower < upper)) "lower must be smaller than upper"
  Except.ok ⟨nRows, network, ratings, lower, upper⟩

/-- rated-network.ts `hasRating`: not every rating is null. -/
def hasRating (rn : RatedNetwork) : Bool :=
  !(rn.ratings.all (fun r => r.isNone))

/-- rated-network.ts `hasUnrated`: not every rating is non-null. -/
def hasUnrated (rn : RatedNetwork) : Bool :=
  !(rn.ratings.all (fun r => r.isSome))

/-- rated-network.ts `addRating`: asserts (throwing `assert` from the "assert"
module) that the index is in range, then overwrites the rating at that index;
the rating value may be any `Rating`, including null (`none`). -/
def addRating (rn : RatedNetwork) (nodeIndex : ℤ) (rating : Option ℚ) :
    Except String RatedNetwork := do
  let _ ← nodeAssert (decide (0 ≤ nodeIndex) && decide (nodeIndex < (rn.nNodes : ℤ)))
    "nodeIndex out of range"
  Except.ok { rn with ratings := rn.ratings.set nodeIndex.toNat rating }

/-- C10: `addRating` accepts null: for an in-range index it succeeds, stores
null (`none`) at that index — un-rating a previously rated item — and
`hasUnrated` returns true afterwards. -/
theorem addRating_accepts_null (rn : RatedNetwork) (i : ℤ)
    (hlen : rn.ratings.length = rn.nNodes) (h0 : 0 ≤ i) (hN : i < (rn.nNodes : ℤ)) :
    ∃ rn2, addRating rn i none = Except.ok rn2 ∧
      rn2.ratings[i.toNat]? = some none ∧ hasUnrated rn2 = true := by
  have hidx : i.toNat < rn.ratings.length := by omega
  refine ⟨{ rn with ratings := rn.ratings.set i.toNat none }, ?_, ?_, ?_⟩
  · have hc : (decide (0 ≤ i) && decide (i < (rn.nNodes : ℤ))) = true := by
      simp [h0, hN]
    simp only [addRating, nodeAssert, hc, if_true]
    rfl
  · exact List.getElem?_set_self hidx
  · have hmem : (none : Option ℚ) ∈ rn.ratings.set i.toNat none := by
      rw [List.mem_iff_getElem?]
      exact ⟨i.toNat, List.getElem?_set_self hidx⟩
    simp only [hasUnrated, Bool.not_eq_true']
    rw [List.all_eq_false]
    exact ⟨none, hmem, by simp⟩

/-- Concrete network used to witness `addRating_accepts_null`. -/
def rnC10 : RatedNetwork := ⟨1, [[0]], [some 3], 0, 1⟩

/-- Witness for C10 at a concrete one-node network whose single node is rated. -/
theorem addRating_accepts_null_witness :
    (rnC10.ratings.length = rnC10.nNodes ∧ (0:ℤ) ≤ 0 ∧ (0:ℤ) < (rnC10.nNodes : ℤ)) ∧
    ∃ rn2, addRating rnC10 0 none = Except.ok rn2 ∧
      rn2.ratings[(0:ℤ).toNat]? = some none ∧ hasUnrated rn2 = true :=
  ⟨⟨rfl, by decide, by decide⟩,
    addRating_accepts_null rnC10 0 rfl (by decide) (by decide)⟩

/-- Shape invariant: an n-by-n rectangular matrix. -/
def ShapeN (n : Nat) (mat : List (List ℚ)) : Prop :=
  mat.length = n ∧ ∀ row ∈ mat, row.length = n

/-- Rows of an n-by-n matrix read through `getD` have length n. -/
lemma row_len {n : Nat} {mat : List (List ℚ)} (hsh : ShapeN n mat) (i : Nat)
    (hi : i < n) : (mat.getD i []).length = n := by
  have hilen : i < mat.length := hsh.1 ▸ hi
  rw [List.getD_eq_getElem?_getD, List.getElem?_eq_getElem hilen]
  exact hsh.2 _ (List.getElem_mem hilen)

lemma shape_set2 {n : Nat} {mat : List (List ℚ)} {i j : Nat} {x : ℚ}
    (hsh : ShapeN n mat) (hi : i < n) : ShapeN n (set2 mat i j x) := by
  have hilen : i < mat.length := hsh.1 ▸ hi
  constructor
  · rw [set2, List.length_set]; exact hsh.1
  · intro row hrow
    rcases List.mem_or_eq_of_mem_set hrow with hmem | heq
    · exact hsh.2 _ hmem
    · rw [heq, List.length_set]
      exact row_len hsh i hi

lemma get2_set2_ne {mat : List (List ℚ)} {i j a b : Nat} {x : ℚ}
    (h : a ≠ i ∨ b ≠ j) : get2 (set2 mat i j x) a b = get2 mat a b := by
  simp only [get2, set2, List.getD_eq_getElem?_getD]
  rw [List.getElem?_set]
  by_cases hai : i = a
  · subst hai
    have hb : b ≠ j := by tauto
    by_cases hi : i < mat.length
    · rw [if_pos rfl, if_pos hi]
      simp only [Option.getD_some]
      rw [List.getElem?_set, if_neg (fun hc => hb hc.symm)]
    · rw [if_pos rfl, if_neg hi, List.getElem?_eq_none (Nat.le_of_not_lt hi)]
  · rw [if_neg hai]

lemma get2_set2_eq {n : Nat} {mat : List (List ℚ)} {i j : Nat} {x : ℚ}
    (hsh : ShapeN n mat) (hi : i < n) (hj : j < n) :
    get2 (set2 mat i j x) i j = x := by
  have hilen : i < mat.length := hsh.1 ▸ hi
  have hrow : (mat.getD i []).length = n := row_len hsh i hi
  simp only [get2, set2, List.getD_eq_getElem?_getD]
  rw [List.getElem?_set_self hilen]
  simp only [Option.getD_some]
  rw [List.getElem?_set_self, Option.getD_some]
  calc (mat[i]?.getD []).length
      = (mat.getD i []).length := by rw [List.getD_eq_getElem?_getD]
    _ = n := hrow
    _ > j := hj

/-- Symmetry plus zero diagonal, the invariant of C9. -/
def SymZeroDiag (mat : List (List ℚ)) : Prop :=
  (∀ i j, get2 mat i j = get2 mat j i) ∧ (∀ i, get2 mat i i = 0)

lemma symStep_preserves (sim : ℚ → ℚ → ℚ) (v : List ℚ) {n : Nat}
    {mat : List (List ℚ)} {i j : Nat} (hsh : ShapeN n mat)
    (hsz : SymZeroDiag mat) (hi : i < n) (hj : j < n) (hij : i ≠ j) :
    ShapeN n (symStep sim v mat i j) ∧ SymZeroDiag (symStep sim v mat i j) := by
  have hshInner : ShapeN n (set2 mat i j (sim (v.getD i 0) (v.getD j 0))) :=
    shape_set2 hsh hi
  have hshOuter : ShapeN n (symStep sim v mat i j) := shape_set2 hshInner hj
  have gji : get2 (symStep sim v mat i j) j i = sim (v.getD i 0) (v.getD j 0) := by
    rw [symStep]
    exact get2_set2_eq hshInner hj hi
  have gij : get2 (symStep sim v mat i j) i j = sim (v.getD i 0) (v.getD j 0) := by
    rw [symStep, get2_set2_ne (Or.inl hij)]
    exact get2_set2_eq hsh hi hj
  have gother : ∀ a b, (a ≠ i ∨ b ≠ j) → (a ≠ j ∨ b ≠ i) →
      get2 (symStep sim v mat i j) a b = get2 mat a b := by
    intro a b h2 h1
    rw [symStep, get2_set2_ne h1, get2_set2_ne h2]
  refine ⟨hshOuter, ?_, ?_⟩
  · intro a b
    by_cases hab1 : a = i ∧ b = j
    · obtain ⟨rfl, rfl⟩ := hab1
      rw [gij, gji]
    · by_cases hab2 : a = j ∧ b = i
      · obtain ⟨rfl, rfl⟩ := hab2
        rw [gij, gji]
      · have h1 : a ≠ j ∨ b ≠ i := by tauto
        have h2 : a ≠ i ∨ b ≠ j := by tauto
        have h3 : b ≠ j ∨ a ≠ i := by tauto
        have h4 : b ≠ i ∨ a ≠ j := by tauto
        rw [gother a b h2 h1, gother b a h4 h3]
        exact hsz.1 a b
  · intro a
    have h1 : a ≠ j ∨ a ≠ i := by
      rcases eq_or_ne a j with rfl | h
      · exact Or.inr (Ne.symm hij)
      · exact Or.inl h
    rw [gother a a h1.symm h1]
    exact hsz.2 a

lemma innerFold_preserves (sim : ℚ → ℚ → ℚ) (v : List ℚ) (n i : Nat)
    (hi : i < n) (jl : List Nat) (hjl : ∀ j ∈ jl, j < n ∧ j ≠ i) :
    ∀ mat, ShapeN n mat → SymZeroDiag mat →
      ShapeN n (jl.foldl (fun m2 j => symStep sim v m2 i j) mat) ∧
      SymZeroDiag (jl.foldl (fun m2 j => symStep sim v m2 i j) mat) := by
  induction jl with
  | nil => exact fun mat hsh hsz => ⟨hsh, hsz⟩
  | cons j jl ih =>
    intro mat hsh hsz
    have hj := hjl j (List.mem_cons_self j jl)
    have hstep := symStep_preserves sim v hsh hsz hi hj.1 (Ne.symm hj.2)
    exact ih (fun a ha => hjl a (List.mem_cons_of_mem j ha)) _ hstep.1 hstep.2

lemma outerFold_preserves (sim : ℚ → ℚ → ℚ) (v : List ℚ) (n : Nat)
    (il : List Nat) (hil : ∀ i ∈ il, i < n - 1) :
    ∀ mat, ShapeN n mat → SymZeroDiag mat →
      ShapeN n (il.foldl
        (fun mat i => (List.range' (i + 1) (n - 1 - i)).foldl
          (fun m2 j => symStep sim v m2 i j) mat) mat) ∧
      SymZeroDiag (il.foldl
        (fun mat i => (List.range' (i + 1) (n - 1 - i)).foldl
          (fun m2 j => symStep sim v m2 i j) mat) mat) := by
  induction il with
  | nil => exact fun mat hsh hsz => ⟨hsh, hsz⟩
  | cons i il ih =>
    intro mat hsh hsz
    have hi : i < n - 1 := hil i (List.mem_cons_self i il)
    have hjl : ∀ j ∈ List.range' (i + 1) (n - 1 - i), j < n ∧ j ≠ i := by
      intro j hjmem
      have := List.mem_range'_1.mp hjmem
      omega
    have hstep := innerFold_preserves sim v n i (by omega) _ hjl mat hsh hsz
    exact ih (fun a ha => hil a (List.mem_cons_of_mem i ha)) _ hstep.1 hstep.2

lemma get2_twoDim_zero (n a b : Nat) : get2 (twoDimensionalArray n n 0) a b = 0 := by
  simp only [get2, twoDimensionalArray, List.getD_eq_getElem?_getD,
    List.getElem?_replicate]
  by_cases ha : a < n
  · rw [if_pos ha]
    simp only [Option.getD_some, List.getElem?_replicate]
    by_cases hb : b < n
    · rw [if_pos hb]; rfl
    · rw [if_neg hb]; rfl
  · rw [if_neg ha]; rfl

/-- C9: for every similarity function and every mean vector, the matrix built
by `meanVectorsToSimilarityMatrix` is symmetric and has an all-zero diagonal
(the double loop only writes the pairs `i < j`, always to both `(i, j)` and
`(j, i)`, and never touches the diagonal of the initial all-zero matrix).
Every profile returned by `KMeansLearner.learnProfile` or
`AverageLearner.learnProfile` is of the form `UserProfile
(meanVectorsToSimilarityMatrix sim mean)`, so each has zero self-similarity on
the diagonal — never `similarityFunction(r, r) = 1`. -/
theorem similarityMatrix_symmetric_zero_diag :
    ∀ (sim : ℚ → ℚ → ℚ) (v : List ℚ),
      (∀ i j, get2 (meanVectorsToSimilarityMatrix sim v) i j
            = get2 (meanVectorsToSimilarityMatrix sim v) j i) ∧
      ∀ i, get2 (meanVectorsToSimilarityMatrix sim v) i i = 0 := by
  intro sim v
  have hbase1 : ShapeN v.length (twoDimensionalArray v.length v.length 0) := by
    constructor
    · exact List.length_replicate _ _
    · intro row hrow
      rw [List.eq_of_mem_replicate hrow]
      exact List.length_replicate _ _
  have hbase2 : SymZeroDiag (twoDimensionalArray v.length v.length 0) :=
    ⟨fun i j => by rw [get2_twoDim_zero, get2_twoDim_zero],
     fun i => get2_twoDim_zero _ _ _⟩
  have h := outerFold_preserves sim v v.length (List.range (v.length - 1))
    (fun i hi => List.mem_range.mp hi) _ hbase1 hbase2
  exact h.2

/-- recommendation-algorithm.ts module constant `ratingRescaleFactorDefault`. -/
def ratingRescaleFactorDefault : ℚ := 5 / 2

/-- recommendation-algorithm.ts module constant `unratedStarRatingDefault`. -/
def unratedStarRatingDefault : ℚ := 5 / 2

/-- matrix.ts `matrixVectorMultiplication` / `matVecMul`: for each row, sums
`row[i] * vector[i]` over `i < row.length`.  This `zipWith` form agrees with
the JS loop whenever `vector` is at least as long as each row, which holds for
every constructor-validated rated network (square matrix, ratings of matching
length); on shorter vectors the JS loop would produce NaN. -/
def matVecMul (mat : List (List ℚ)) (v : List ℚ) : List ℚ :=
  mat.map (fun row => (row.zipWith (fun a b => a * b) v).sum)

/-- recommendation-algorithm.ts `RecommendationAlgorithm
.getRecommendationVector`: works on a deep clone of the rated network (the
embedding is pure, so cloning is implicit), centres the similarity values at
`(upper - lower) / 2`, substitutes the unrated-star default for null ratings,
shifts the ratings by the rescale factor, and multiplies. -/
def getRecommendationVector (rn : RatedNetwork) : List ℚ :=
  let networkRescaleFactor := (rn.upper - rn.lower) / 2
  let rescaledNetwork := rn.network.map (fun row => row.map (fun e => e - networkRescaleFactor))
  let rescaledRatings :=
    (rn.ratings.map (fun e => e.getD unratedStarRatingDefault)).map
      (fun e => e - ratingRescaleFactorDefault)
  matVecMul rescaledNetwork rescaledRatings

/-- Reducer of `recommendVector.reduce((e1, e2) => (e1 < e2) ? e1 : e2)`. -/
def minPick (a b : ℚ) : ℚ := if a < b then a else b

/-- Reducer of the argmax step `([i1, e1], [i2, e2]) => (e1 > e2) ? [i1, e1] :
[i2, e2]`; note that on equal values it keeps the SECOND (later) pair. -/
def maxPairPick (p q : Nat × ℚ) : Nat × ℚ := if p.2 > q.2 then p else q

/-- The loop `ratings.entries().forEach(([i, r]) => { if (r !== null)
recommendVector[i] = val })`: every index holding a non-null rating is
overwritten with `val`, the rest of the score vector is kept.  Each index is
written at most once and — for the equal lengths guaranteed by the
constructor — always in range. -/
def overwriteRated : List ℚ → List (Option ℚ) → ℚ → List ℚ
  | [], _, _ => []
  | rv, [], _ => rv
  | x :: rv, r :: rs, val => (if r.isSome then val else x) :: overwriteRated rv rs val

/-- Scores used by greedy recommendation after the mask step: the minimum of
the recommendation vector is computed by a `reduce` (throws on an empty
vector, hence `Option`), and every already-rated index is overwritten with
`minVal - 1`. -/
def greedyScores (rn : RatedNetwork) : Option (List ℚ) :=
  (reduce1 minPick (getRecommendationVector rn)).map
    (fun minVal => overwriteRated (getRecommendationVector rn) rn.ratings (minVal - 1))

/-- recommendation-algorithm.ts `GreedyRecommendationAlgorithm.recommend`:
masks the rated entries below the minimum, then returns the first component of
`recommendVector.entries().reduce((p, q) => p.2 > q.2 ? p : q)`. -/
def greedyRecommend (rn : RatedNetwork) : Option Nat :=
  (greedyScores rn).bind
    (fun masked => (reduce1 maxPairPick masked.enum).map (fun p => p.1))

/-- Well-formedness guaranteed by the `RatedNetwork` constructor (its Node
`assert`s throw on violation): the matrix is square of size `nNodes`, the
rating vector has matching length, and the network is nonempty. -/
def WF (rn : RatedNetwork) : Prop :=
  rn.nNodes = rn.network.length ∧ (∀ row ∈ rn.network, row.length = rn.nNodes) ∧
    rn.ratings.length = rn.nNodes ∧ 1 ≤ rn.nNodes

lemma length_overwriteRated (rv : List ℚ) (rs : List (Option ℚ)) (val : ℚ) :
    (overwriteRated rv rs val).length = rv.length := by
  induction rv generalizing rs with
  | nil => cases rs <;> rfl
  | cons x rv ih =>
    cases rs with
    | nil => rfl
    | cons r rs => simp [overwriteRated, ih]

lemma getElem?_overwriteRated (rv : List ℚ) (rs : List (Option ℚ)) (val : ℚ)
    (i : Nat) :
    (overwriteRated rv rs val)[i]? =
      match rs[i]? with
      | some r => rv[i]?.map (fun x => if r.isSome then val else x)
      | none => rv[i]? := by
  induction rv generalizing rs i with
  | nil =>
    cases hrs : rs[i]? <;> simp [overwriteRated]
  | cons x rv ih =>
    cases rs with
    | nil => simp [overwriteRated]
    | cons r rs =>
      cases i with
      | zero => simp [overwriteRated]
      | succ n => simpa [overwriteRated] using ih rs n

lemma foldl_minPick_le (l : List ℚ) (a : ℚ) :
    l.foldl minPick a ≤ a ∧ ∀ x ∈ l, l.foldl minPick a ≤ x := by
  induction l generalizing a with
  | nil => exact ⟨le_refl a, fun x hx => absurd hx (List.not_mem_nil x)⟩
  | cons b l ih =>
    have hab : minPick a b ≤ a ∧ minPick a b ≤ b := by
      unfold minPick
      split_ifs with h
      · exact ⟨le_refl a, le_of_lt h⟩
      · exact ⟨le_of_not_lt h, le_refl b⟩
    obtain ⟨ih1, ih2⟩ := ih (minPick a b)
    refine ⟨le_trans ih1 hab.1, ?_⟩
    intro x hx
    rcases List.mem_cons.mp hx with rfl | hx
    · exact le_trans ih1 hab.2
    · exact ih2 x hx

lemma reduce1_minPick_le (l : List ℚ) (mv : ℚ)
    (h : reduce1 minPick l = some mv) : ∀ x ∈ l, mv ≤ x := by
  cases l with
  | nil => exact absurd h (by simp [reduce1])
  | cons a as =>
    have hmv : mv = as.foldl minPick a := by
      simp [reduce1] at h
      exact h.symm
    intro x hx
    obtain ⟨h1, h2⟩ := foldl_minPick_le as a
    rcases List.mem_cons.mp hx with rfl | hx
    · exact hmv ▸ h1
    · exact hmv ▸ h2 x hx

lemma foldl_maxPairPick_spec (l : List ℚ) :
    ∀ (n : Nat) (acc : Nat × ℚ),
      ((List.enumFrom n l).foldl maxPairPick acc = acc ∨
        ((List.enumFrom n l).foldl maxPairPick acc ∈ List.enumFrom n l ∧
          n ≤ ((List.enumFrom n l).foldl maxPairPick acc).1)) ∧
      acc.2 ≤ ((List.enumFrom n l).foldl maxPairPick acc).2 ∧
      (∀ q ∈ List.enumFrom n l, q.2 ≤ ((List.enumFrom n l).foldl maxPairPick acc).2) ∧
      (∀ q ∈ List.enumFrom n l,
        q.2 = ((List.enumFrom n l).foldl maxPairPick acc).2 →
          q.1 ≤ ((List.enumFrom n l).foldl maxPairPick acc).1) := by
  induction l with
  | nil =>
    intro n acc
    exact ⟨Or.inl rfl, le_refl _,
      fun q hq => absurd hq (List.not_mem_nil q),
      fun q hq => absurd hq (List.not_mem_nil q)⟩
  | cons x xs ih =>
    intro n acc
    have hstep : (List.enumFrom n (x :: xs)).foldl maxPairPick acc =
        (List.enumFrom (n + 1) xs).foldl maxPairPick (maxPairPick acc (n, x)) := by
      rfl
    obtain ⟨hC, hA, hB, hD⟩ := ih (n + 1) (maxPairPick acc (n, x))
    have hacc2cases : maxPairPick acc (n, x) = acc ∨ maxPairPick acc (n, x) = (n, x) := by
      unfold maxPairPick
      split_ifs <;> [exact Or.inl rfl; exact Or.inr rfl]
    have hacc2a : acc.2 ≤ (maxPairPick acc (n, x)).2 := by
      unfold maxPairPick
      split_ifs with h
      · exact le_refl _
      · exact le_of_not_lt h
    have hacc2x : x ≤ (maxPairPick acc (n, x)).2 := by
      unfold maxPairPick
      split_ifs with h
      · exact le_of_lt h
      · exact le_refl _
    rw [hstep]
    refine ⟨?_, le_trans hacc2a hA, ?_, ?_⟩
    · rcases hC with hCl | hCr
      · rw [hCl]
        rcases hacc2cases with h2 | h2
        · exact Or.inl h2
        · rw [h2]
          exact Or.inr ⟨List.mem_cons_self _ _, le_refl n⟩
      · exact Or.inr ⟨List.mem_cons_of_mem _ hCr.1, le_trans (Nat.le_succ n) hCr.2⟩
    · intro q hq
      rcases List.mem_cons.mp hq with rfl | hq
      · exact le_trans hacc2x hA
      · exact hB q hq
    · intro q hq hq2
      rcases List.mem_cons.mp hq with rfl | hq
      · by_cases hcase : acc.2 > x
        · exfalso
          have h1 : (maxPairPick acc (n, x)).2 = acc.2 := by
            unfold maxPairPick
            rw [if_pos hcase]
          have hle : acc.2 ≤ x := by
            have hx2 : ((n, x) : Nat × ℚ).2 = x := rfl
            rw [hx2] at hq2
            rw [hq2, ← h1]
            exact hA
          exact absurd (lt_of_lt_of_le hcase hle) (lt_irrefl _)
        · have h2 : maxPairPick acc (n, x) = (n, x) := by
            unfold maxPairPick
            rw [if_neg hcase]
          rcases hC with hCl | hCr
          · rw [hCl, h2]
          · exact le_trans (Nat.le_succ n) hCr.2
      · exact hD q hq hq2

lemma greedy_core (rn : RatedNetwork) (hwf : WF rn) :
    ∃ (masked : List ℚ) (res : Nat × ℚ) (mv : ℚ),
      greedyScores rn = some masked ∧
      greedyRecommend rn = some res.1 ∧
      masked[res.1]? = some res.2 ∧
      (∀ q ∈ masked.enum, q.2 ≤ res.2) ∧
      (∀ q ∈ masked.enum, q.2 = res.2 → q.1 ≤ res.1) ∧
      masked = overwriteRated (getRecommendationVector rn) rn.ratings (mv - 1) ∧
      (∀ x ∈ getRecommendationVector rn, mv ≤ x) ∧
      masked.length = rn.nNodes := by
  obtain ⟨hn, hrows, hrat, hpos⟩ := hwf
  have hrvlen : (getRecommendationVector rn).length = rn.nNodes := by
    unfold getRecommendationVector matVecMul
    simp [hn.symm]
  obtain ⟨a, as, hcons⟩ : ∃ a as, getRecommendationVector rn = a :: as := by
    cases hrv : getRecommendationVector rn with
    | nil => rw [hrv] at hrvlen; simp at hrvlen; omega
    | cons a as => exact ⟨a, as, rfl⟩
  have hred : reduce1 minPick (getRecommendationVector rn) = some (as.foldl minPick a) := by
    rw [hcons]; rfl
  have hminle := reduce1_minPick_le _ _ hred
  have hgs : greedyScores rn =
      some (overwriteRated (getRecommendationVector rn) rn.ratings (as.foldl minPick a - 1)) := by
    unfold greedyScores
    rw [hred]
    rfl
  set masked := overwriteRated (getRecommendationVector rn) rn.ratings
    (as.foldl minPick a - 1) with hmaskdef
  have hmlen : masked.length = rn.nNodes := by
    rw [hmaskdef, length_overwriteRated, hrvlen]
  obtain ⟨m0, ms, hmcons⟩ : ∃ m0 ms, masked = m0 :: ms := by
    cases hm : masked with
    | nil => rw [hm] at hmlen; simp at hmlen; omega
    | cons m0 ms => exact ⟨m0, ms, rfl⟩
  have henum : masked.enum = (0, m0) :: List.enumFrom 1 ms := by
    rw [hmcons]; exact List.enum_cons
  set res := (List.enumFrom 1 ms).foldl maxPairPick (0, m0) with hres
  have hredmax : reduce1 maxPairPick masked.enum = some res := by
    rw [henum]; rfl
  have hgr : greedyRecommend rn = some res.1 := by
    unfold greedyRecommend
    rw [hgs]
    show (reduce1 maxPairPick masked.enum).map (fun p => p.1) = some res.1
    rw [hredmax]
    rfl
  obtain ⟨hC, hA, hB, hD⟩ := foldl_maxPairPick_spec ms 1 (0, m0)
  have hmem : res ∈ masked.enum := by
    rw [henum]
    rcases hC with h | h
    · rw [hres, h]; exact List.mem_cons_self _ _
    · exact List.mem_cons_of_mem _ h.1
  have hget : masked[res.1]? = some res.2 := List.mem_enum_iff_getElem?.mp hmem
  have hmax : ∀ q ∈ masked.enum, q.2 ≤ res.2 := by
    rw [henum]
    intro q hq
    rcases List.mem_cons.mp hq with rfl | hq
    · exact hA
    · exact hB q hq
  have hlast : ∀ q ∈ masked.enum, q.2 = res.2 → q.1 ≤ res.1 := by
    rw [henum]
    intro q hq hq2
    rcases List.mem_cons.mp hq with rfl | hq
    · exact Nat.zero_le _
    · exact hD q hq hq2
  exact ⟨masked, res, as.foldl minPick a, hgs, hgr, hget, hmax, hlast, rfl, hminle, hmlen⟩

/-- C1: for every well-formed rated network with at least one unrated item,
greedy recommendation returns the index of an unrated item: all rated indices
are overwritten with `minVal - 1`, strictly below every surviving (unrated)
score, so the argmax cannot land on a rated index. -/
theorem greedy_recommends_unrated (rn : RatedNetwork) (hwf : WF rn)
    (hun : none ∈ rn.ratings) :
    ∃ i, greedyRecommend rn = some i ∧ rn.ratings[i]? = some none := by
  obtain ⟨masked, res, mv, hgs, hgr, hget, hmax, hlast, hmaskdef, hminle, hmlen⟩ :=
    greedy_core rn hwf
  obtain ⟨hn, hrows, hrat, hpos⟩ := hwf
  have hrvlen : (getRecommendationVector rn).length = rn.nNodes := by
    unfold getRecommendationVector matVecMul
    simp [hn.symm]
  obtain ⟨i0, hi0⟩ := List.mem_iff_getElem?.mp hun
  have hi0lt : i0 < rn.ratings.length := (List.getElem?_eq_some_iff.mp hi0).1
  have hi0rv : i0 < (getRecommendationVector rn).length := by omega
  have hx0 : (getRecommendationVector rn)[i0]? =
      some ((getRecommendationVector rn)[i0]) := List.getElem?_eq_getElem hi0rv
  have hm0get : masked[i0]? = some ((getRecommendationVector rn)[i0]) := by
    rw [hmaskdef, getElem?_overwriteRated, hi0]
    simp [hx0]
  have hmvx0 : mv ≤ (getRecommendationVector rn)[i0] :=
    hminle _ (List.getElem_mem hi0rv)
  have hresge : (getRecommendationVector rn)[i0] ≤ res.2 :=
    hmax (i0, (getRecommendationVector rn)[i0]) (List.mem_enum_iff_getElem?.mpr hm0get)
  have hreslt : res.1 < masked.length := (List.getElem?_eq_some_iff.mp hget).1
  have hresrat : res.1 < rn.ratings.length := by omega
  have hrr : rn.ratings[res.1]? = some (rn.ratings[res.1]) :=
    List.getElem?_eq_getElem hresrat
  refine ⟨res.1, hgr, ?_⟩
  cases hr : rn.ratings[res.1] with
  | none => rw [hrr, hr]
  | some q =>
    exfalso
    have hrvres : res.1 < (getRecommendationVector rn).length := by omega
    have hmr : masked[res.1]? = some (mv - 1) := by
      rw [hmaskdef, getElem?_overwriteRated, hrr, hr]
      simp [List.getElem?_eq_getElem hrvres]
    have hval : res.2 = mv - 1 := by
      rw [hget] at hmr
      injection hmr
    rw [hval] at hresge
    linarith

/-- Concrete network for the C1 witness (also the C8 scenario shape): item 0
rated 5, items 1 and 2 unrated. -/
def rnC1 : RatedNetwork := ⟨3, [[0,1,0],[1,0,0],[0,0,0]], [some 5, none, none], 0, 1⟩

/-- Witness for C1 at a concrete partially rated 3-node network. -/
theorem greedy_recommends_unrated_witness :
    (WF rnC1 ∧ (none : Option ℚ) ∈ rnC1.ratings) ∧
    ∃ i, greedyRecommend rnC1 = some i ∧ rnC1.ratings[i]? = some none :=
  ⟨⟨by constructor <;> simp [rnC1, WF], by simp [rnC1]⟩,
    greedy_recommends_unrated rnC1 (by constructor <;> simp [rnC1, WF]) (by simp [rnC1])⟩

/-- C4 (amended): when scores tie after the mask step, greedy recommendation
returns the LARGEST tied index, not the smallest: the argmax reduce keeps the
later pair on equal values (`(e1 > e2) ? p1 : p2`).  The returned index
attains the maximal masked score and every index attaining that score is at
most the returned one. -/
theorem greedy_ties_pick_last (rn : RatedNetwork) (hwf : WF rn)
    (hun : none ∈ rn.ratings) :
    ∃ (i : Nat) (masked : List ℚ),
      greedyScores rn = some masked ∧ greedyRecommend rn = some i ∧
      (∀ q ∈ masked.enum, q.2 ≤ masked.getD i 0) ∧
      (∀ q ∈ masked.enum, q.2 = masked.getD i 0 → q.1 ≤ i) := by
  obtain ⟨masked, res, mv, hgs, hgr, hget, hmax, hlast, _, _, _⟩ := greedy_core rn hwf
  have hgd : masked.getD res.1 0 = res.2 := by
    rw [List.getD_eq_getElem?_getD, hget]
    rfl
  refine ⟨res.1, masked, hgs, hgr, ?_, ?_⟩
  · rw [hgd]; exact hmax
  · rw [hgd]; exact hlast

/-- Concrete network for the C4 witness and counterexample: item 0 rated 5,
items 1 and 2 both fully similar to item 0, hence tied for the maximal score. -/
def rnC4 : RatedNetwork := ⟨3, [[0,1,1],[1,0,0],[1,0,0]], [some 5, none, none], 0, 1⟩

/-- Witness for the amended C4 at a concrete network with a genuine tie. -/
theorem greedy_ties_pick_last_witness :
    (WF rnC4 ∧ (none : Option ℚ) ∈ rnC4.ratings) ∧
    ∃ (i : Nat) (masked : List ℚ),
      greedyScores rnC4 = some masked ∧ greedyRecommend rnC4 = some i ∧
      (∀ q ∈ masked.enum, q.2 ≤ masked.getD i 0) ∧
      (∀ q ∈ masked.enum, q.2 = masked.getD i 0 → q.1 ≤ i) :=
  ⟨⟨by constructor <;> simp [rnC4, WF], by simp [rnC4]⟩,
    greedy_ties_pick_last rnC4 (by constructor <;> simp [rnC4, WF]) (by simp [rnC4])⟩

/-- C4 counterexample: on `rnC4` the masked score vector is
`[-9/4, 5/4, 5/4]` — items 1 and 2 tie for the maximum — and greedy
recommendation returns index 2, not the smallest tied index 1 as claimed. -/
theorem greedy_tie_counterexample :
    greedyScores rnC4 = some [-9/4, 5/4, 5/4] ∧
    greedyRecommend rnC4 = some 2 := by
  constructor
  · norm_num [rnC4, greedyScores, getRecommendationVector, matVecMul,
      overwriteRated, minPick, reduce1, ratingRescaleFactorDefault,
      unratedStarRatingDefault]
  · norm_num [rnC4, greedyRecommend, greedyScores, getRecommendationVector,
      matVecMul, overwriteRated, minPick, maxPairPick, reduce1,
      ratingRescaleFactorDefault, unratedStarRatingDefault,
      List.enum, List.enumFrom]

/-- C8: the spec's end-to-end scenario: 3-node network `[[0,1,0],[1,0,0],
[0,0,0]]`, bounds derived from the matrix (floor 0 / ceil 1), ratings
`[5, null, null]`; greedy recommendation selects item 1 (the item most
similar to the only rated item), not the isolated item 2. -/
theorem greedy_end_to_end_scenario :
    Except.map greedyRecommend
      (mkRatedNetwork [[0,1,0],[1,0,0],[0,0,0]] [some 5, none, none] none none)
      = Except.ok (some 1) := by
  have hmk : mkRatedNetwork [[0,1,0],[1,0,0],[0,0,0]] [some 5, none, none] none none
      = Except.ok ⟨3, [[0,1,0],[1,0,0],[0,0,0]], [some 5, none, none], 0, 1⟩ := by
    norm_num [mkRatedNetwork, nodeAssert, twoDimReduce, reduceRows, reduce1]
    rfl
  rw [hmk]
  show Except.ok (greedyRecommend _) = _
  norm_num [greedyRecommend, greedyScores, getRecommendationVector,
    matVecMul, overwriteRated, minPick, maxPairPick, reduce1,
    ratingRescaleFactorDefault, unratedStarRatingDefault,
    List.enum, List.enumFrom]

/-- JavaScript `<` on two `Math.sqrt` results, as used to compare Euclidean
distances in the k-means assignment step.  Both `sqrtVal` payloads are
nonnegative by construction of `mathSqrt`, and the real square root is
strictly monotone on nonnegatives, so `√a < √b ↔ a < b`; any comparison
involving NaN is false in JS. -/
def jsLt : JsNum → JsNum → Bool
  | JsNum.sqrtVal a, JsNum.sqrtVal b => decide (a < b)
  | _, _ => false

/-- Reducer of the argmin step `([i1, d1], [i2, d2]) => (d1 < d2) ? [i1, d1] :
[i2, d2]` of `kMeansIteration`; on equal distances it keeps the SECOND (later)
pair. -/
def minDistPick (p q : Nat × JsNum) : Nat × JsNum := if jsLt p.2 q.2 then p else q

/-- Cluster choice for one user in profile-learner.ts `kMeansIteration`
(lines 90-96): Euclidean distance to every current mean, then the argmin
reduce over the indexed distances (`Array.reduce` without initial value, hence
`none` models the TypeError thrown when there are no means). -/
def assignCluster (means : List (List ℚ)) (r : List ℚ) : Option Nat :=
  (reduce1 minDistPick ((means.map (fun v => vectorDistVal r v)).enum)).map
    (fun p => p.1)

/-- Assignment step of profile-learner.ts `kMeansIteration`: builds the
`pointAssignments` list, pairing each user's (cleaned) rating vector with the
index of its chosen cluster. -/
def kMeansAssign (ratings means : List (List ℚ)) : Option (List (Nat × List ℚ)) :=
  ratings.mapM (fun r => (assignCluster means r).map (fun idx => (idx, r)))

/-- Squared Euclidean distance over rationals; `vectorDist` computes its
square root. -/
def sqDist (v1 v2 : List ℚ) : ℚ :=
  (v1.zipWith (fun a b => (a - b) ^ 2) v2).sum

lemma vectorDistSqJS_eq_sqDist (v1 : List ℚ) :
    ∀ v2 : List ℚ, v1.length ≤ v2.length →
      vectorDistSqJS v1 v2 = some (sqDist v1 v2) := by
  induction v1 with
  | nil =>
    intro v2 h
    simp [vectorDistSqJS, sqDist]
  | cons a as ih =>
    intro v2 h
    cases v2 with
    | nil => simp at h
    | cons b bs =>
      have hlen : as.length ≤ bs.length := by
        simpa using h
      simp [vectorDistSqJS, ih bs hlen, sqDist, List.zipWith]

lemma sqDist_nonneg (v1 : List ℚ) : ∀ v2 : List ℚ, 0 ≤ sqDist v1 v2 := by
  induction v1 with
  | nil => intro v2; simp [sqDist]
  | cons a as ih =>
    intro v2
    cases v2 with
    | nil => simp [sqDist]
    | cons b bs =>
      have h1 : (0:ℚ) ≤ (a - b) ^ 2 := sq_nonneg _
      have h2 := ih bs
      simp only [sqDist, List.zipWith, List.sum_cons] at *
      linarith

lemma vectorDistVal_eq_sqrt (v1 v2 : List ℚ) (h : v1.length ≤ v2.length) :
    vectorDistVal v1 v2 = JsNum.sqrtVal (sqDist v1 v2) := by
  unfold vectorDistVal
  rw [vectorDistSqJS_eq_sqDist v1 v2 h]
  simp only [mathSqrt]
  rw [if_neg (not_lt.mpr (sqDist_nonneg v1 v2))]

/-- The rational-level reducer matching `minDistPick` through `sqrtVal`. -/
def minQPick (p q : Nat × ℚ) : Nat × ℚ := if p.2 < q.2 then p else q

lemma foldl_minDistPick_sqrt (l : List (Nat × ℚ)) :
    ∀ acc : Nat × ℚ,
      (l.map (fun p => (p.1, JsNum.sqrtVal p.2))).foldl minDistPick
          (acc.1, JsNum.sqrtVal acc.2)
        = ((l.foldl minQPick acc).1, JsNum.sqrtVal (l.foldl minQPick acc).2) := by
  induction l with
  | nil => intro acc; rfl
  | cons x xs ih =>
    intro acc
    have hstep : minDistPick (acc.1, JsNum.sqrtVal acc.2) (x.1, JsNum.sqrtVal x.2)
        = ((minQPick acc x).1, JsNum.sqrtVal (minQPick acc x).2) := by
      unfold minDistPick minQPick jsLt
      by_cases h : acc.2 < x.2
      · simp [h]
      · simp [h]
    simp only [List.map_cons, List.foldl_cons, hstep]
    exact ih (minQPick acc x)

lemma foldl_minQPick_spec (l : List ℚ) :
    ∀ (n : Nat) (acc : Nat × ℚ),
      ((List.enumFrom n l).foldl minQPick acc = acc ∨
        ((List.enumFrom n l).foldl minQPick acc ∈ List.enumFrom n l ∧
          n ≤ ((List.enumFrom n l).foldl minQPick acc).1)) ∧
      ((List.enumFrom n l).foldl minQPick acc).2 ≤ acc.2 ∧
      (∀ q ∈ List.enumFrom n l, ((List.enumFrom n l).foldl minQPick acc).2 ≤ q.2) ∧
      (∀ q ∈ List.enumFrom n l,
        q.2 = ((List.enumFrom n l).foldl minQPick acc).2 →
          q.1 ≤ ((List.enumFrom n l).foldl minQPick acc).1) := by
  induction l with
  | nil =>
    intro n acc
    exact ⟨Or.inl rfl, le_refl _,
      fun q hq => absurd hq (List.not_mem_nil q),
      fun q hq => absurd hq (List.not_mem_nil q)⟩
  | cons x xs ih =>
    intro n acc
    have hstep : (List.enumFrom n (x :: xs)).foldl minQPick acc =
        (List.enumFrom (n + 1) xs).foldl minQPick (minQPick acc (n, x)) := by
      rfl
    obtain ⟨hC, hA, hB, hD⟩ := ih (n + 1) (minQPick acc (n, x))
    have hacc2cases : minQPick acc (n, x) = acc ∨ minQPick acc (n, x) = (n, x) := by
      unfold minQPick
      split_ifs <;> [exact Or.inl rfl; exact Or.inr rfl]
    have hacc2a : (minQPick acc (n, x)).2 ≤ acc.2 := by
      unfold minQPick
      split_ifs with h
      · exact le_refl _
      · exact le_of_not_lt h
    have hacc2x : (minQPick acc (n, x)).2 ≤ x := by
      unfold minQPick
      split_ifs with h
      · exact le_of_lt h
      · exact le_refl _
    rw [hstep]
    refine ⟨?_, le_trans hA hacc2a, ?_, ?_⟩
    · rcases hC with hCl | hCr
      · rw [hCl]
        rcases hacc2cases with h2 | h2
        · exact Or.inl h2
        · rw [h2]
          exact Or.inr ⟨List.mem_cons_self _ _, le_refl n⟩
      · exact Or.inr ⟨List.mem_cons_of_mem _ hCr.1, le_trans (Nat.le_succ n) hCr.2⟩
    · intro q hq
      rcases List.mem_cons.mp hq with rfl | hq
      · exact le_trans hA hacc2x
      · exact hB q hq
    · intro q hq hq2
      rcases List.mem_cons.mp hq with rfl | hq
      · by_cases hcase : acc.2 < x
        · exfalso
          have h1 : (minQPick acc (n, x)).2 = acc.2 := by
            unfold minQPick
            rw [if_pos hcase]
          have hx2 : ((n, x) : Nat × ℚ).2 = x := rfl
          rw [hx2] at hq2
          rw [h1] at hA
          have hle : x ≤ acc.2 := by
            rw [hq2]
            exact hA
          exact absurd (lt_of_lt_of_le hcase hle) (lt_irrefl _)
        · have h2 : minQPick acc (n, x) = (n, x) := by
            unfold minQPick
            rw [if_neg hcase]
          rcases hC with hCl | hCr
          · rw [hCl, h2]
          · exact le_trans (Nat.le_succ n) hCr.2
      · exact hD q hq hq2

lemma enumFrom_map_sqrtVal (l : List ℚ) :
    ∀ n : Nat, List.enumFrom n (l.map (fun q => JsNum.sqrtVal q))
      = (List.enumFrom n l).map (fun p => (p.1, JsNum.sqrtVal p.2)) := by
  induction l with
  | nil => intro n; rfl
  | cons x xs ih => intro n; simp [List.enumFrom_cons, ih]

/-- C3 (amended): in the k-means assignment step each user's vector goes to a
cluster attaining the minimal Euclidean distance, but ties are broken towards
the HIGHEST-indexed such cluster — the reduce `(d1 < d2) ? [i1,d1] : [i2,d2]`
keeps the later pair on equal distances — not the lowest-indexed as claimed.
Distances are stated through their squares (`sqDist`); this is equivalent
because the real square root is strictly monotone on nonnegatives.
`kMeansAssign` applies `assignCluster` to every user's cleaned vector. -/
theorem kmeans_assign_argmin_last (means : List (List ℚ)) (r : List ℚ)
    (hne : means ≠ []) (hlen : ∀ m ∈ means, r.length ≤ m.length) :
    ∃ idx, assignCluster means r = some idx ∧ idx < means.length ∧
      (∀ q ∈ (means.map (sqDist r)).enum,
        (means.map (sqDist r)).getD idx 0 ≤ q.2) ∧
      (∀ q ∈ (means.map (sqDist r)).enum,
        q.2 = (means.map (sqDist r)).getD idx 0 → q.1 ≤ idx) := by
  have hmapeq : means.map (fun v => vectorDistVal r v)
      = (means.map (sqDist r)).map (fun q => JsNum.sqrtVal q) := by
    rw [List.map_map]
    exact List.map_congr_left (fun m hm => vectorDistVal_eq_sqrt r m (hlen m hm))
  obtain ⟨q0, qs, hq⟩ : ∃ q0 qs, means.map (sqDist r) = q0 :: qs := by
    cases means with
    | nil => exact absurd rfl hne
    | cons m0 ms => exact ⟨sqDist r m0, ms.map (sqDist r), rfl⟩
  have henum : ((means.map (sqDist r)).map (fun q => JsNum.sqrtVal q)).enum
      = (0, JsNum.sqrtVal q0) ::
        (List.enumFrom 1 qs).map (fun p => (p.1, JsNum.sqrtVal p.2)) := by
    rw [hq]
    show List.enum (JsNum.sqrtVal q0 :: qs.map (fun q => JsNum.sqrtVal q)) = _
    rw [List.enum_cons, enumFrom_map_sqrtVal]
  have hfold := foldl_minDistPick_sqrt (List.enumFrom 1 qs) (0, q0)
  have hred : reduce1 minDistPick ((means.map (fun v => vectorDistVal r v)).enum)
      = some (((List.enumFrom 1 qs).foldl minQPick (0, q0)).1,
          JsNum.sqrtVal ((List.enumFrom 1 qs).foldl minQPick (0, q0)).2) := by
    rw [hmapeq, henum]
    show some (((List.enumFrom 1 qs).map (fun p => (p.1, JsNum.sqrtVal p.2))).foldl
      minDistPick (0, JsNum.sqrtVal q0)) = _
    rw [← hfold]
  have hassign : assignCluster means r
      = some ((List.enumFrom 1 qs).foldl minQPick (0, q0)).1 := by
    unfold assignCluster
    rw [hred]
    rfl
  obtain ⟨hC, hA, hB, hD⟩ := foldl_minQPick_spec qs 1 (0, q0)
  have hmem : (List.enumFrom 1 qs).foldl minQPick (0, q0) ∈ (means.map (sqDist r)).enum := by
    rw [hq, List.enum_cons]
    rcases hC with h | h
    · rw [h]; exact List.mem_cons_self _ _
    · exact List.mem_cons_of_mem _ h.1
  have hget : (means.map (sqDist r))[((List.enumFrom 1 qs).foldl minQPick (0, q0)).1]?
      = some ((List.enumFrom 1 qs).foldl minQPick (0, q0)).2 :=
    List.mem_enum_iff_getElem?.mp hmem
  have hlt : ((List.enumFrom 1 qs).foldl minQPick (0, q0)).1 < (means.map (sqDist r)).length :=
    (List.getElem?_eq_some_iff.mp hget).1
  have hgd : (means.map (sqDist r)).getD ((List.enumFrom 1 qs).foldl minQPick (0, q0)).1 0
      = ((List.enumFrom 1 qs).foldl minQPick (0, q0)).2 := by
    rw [List.getD_eq_getElem?_getD, hget]
    rfl
  refine ⟨((List.enumFrom 1 qs).foldl minQPick (0, q0)).1, hassign, ?_, ?_, ?_⟩
  · rw [List.length_map] at hlt
    exact hlt
  · rw [hgd, hq, List.enum_cons]
    intro q hqm
    rcases List.mem_cons.mp hqm with rfl | hqm
    · exact hA
    · exact hB q hqm
  · rw [hgd, hq, List.enum_cons]
    intro q hqm hq2
    rcases List.mem_cons.mp hqm with rfl | hqm
    · exact Nat.zero_le _
    · exact hD q hqm hq2

/-- Witness for the amended C3: user vector `[1]` against means `[0]` and
`[2]`, both at squared distance 1. -/
theorem kmeans_assign_argmin_last_witness :
    (([[0],[2]] : List (List ℚ)) ≠ [] ∧
      ∀ m ∈ ([[0],[2]] : List (List ℚ)), ([1] : List ℚ).length ≤ m.length) ∧
    ∃ idx, assignCluster [[0],[2]] [1] = some idx ∧
      idx < ([[0],[2]] : List (List ℚ)).length ∧
      (∀ q ∈ (([[0],[2]] : List (List ℚ)).map (sqDist [1])).enum,
        (([[0],[2]] : List (List ℚ)).map (sqDist [1])).getD idx 0 ≤ q.2) ∧
      (∀ q ∈ (([[0],[2]] : List (List ℚ)).map (sqDist [1])).enum,
        q.2 = (([[0],[2]] : List (List ℚ)).map (sqDist [1])).getD idx 0 → q.1 ≤ idx) :=
  ⟨⟨by simp, by decide⟩,
    kmeans_assign_argmin_last [[0],[2]] [1] (by simp) (by decide)⟩

/-- C3 counterexample: the user vector `[1]` is equidistant from the two
cluster means `[0]` and `[2]`, yet the assignment step chooses cluster 1, not
the lowest-indexed tied cluster 0 as the claim requires. -/
theorem kmeans_tie_counterexample :
    vectorDistVal [1] [0] = vectorDistVal [1] [2] ∧
    kMeansAssign [[1]] [[0],[2]] = some [(1, [1])] := by
  constructor
  · norm_num [vectorDistVal, vectorDistSqJS, mathSqrt]
  · simp only [kMeansAssign]
    rw [List.mapM_cons, List.mapM_nil]
    norm_num [assignCluster, vectorDistVal, vectorDistSqJS, mathSqrt,
      minDistPick, jsLt, reduce1, List.enum, List.enumFrom]

/-- Cumulative-distribution loop of `ProbabilisticRecommendationAlgorithm
.recommend`: `cdist.push([i, p + prev]); prev += p`. -/
def cumulativeDist : List (Nat × ℚ) → ℚ → List (Nat × ℚ)
  | [], _ => []
  | (i, p) :: rest, prev => (i, p + prev) :: cumulativeDist rest (prev + p)

/-- recommendation-algorithm.ts `ProbabilisticRecommendationAlgorithm
.recommend`, with the random draw `u = Math.random()` passed in explicitly:
zeroes rated entries, falls back to the uniform distribution when all scores
are equal (vacuously so for an empty vector, where `Array(0).fill` is empty
anyway), otherwise normalizes by the sum (`reduce` on an empty array cannot be
reached in that branch; a zero sum gives division by zero, which rationals
collapse to 0 where JS would produce infinities — the spec flags this corner
as an open defect and no claim depends on the sampled value there), sorts the
indexed scores ascending (JS `sort` with comparator `r1 - r2`; stable, as
`mergeSort` is), accumulates, and returns the first index whose cumulative
probability exceeds `u`, throwing when none does. -/
def probRecommend (u : ℚ) (rn : RatedNetwork) : Except String Nat := do
  let rv1 := overwriteRated (getRecommendationVector rn) rn.ratings 0
  let rv : List ℚ ← (match rv1.head? with
    | none => pure ([] : List ℚ)
    | some h =>
      if rv1.all (fun e => decide (e = h)) then
        pure (List.replicate rv1.length ((1 : ℚ) / (rv1.length : ℚ)))
      else
        match reduce1 (fun a b => a + b) rv1 with
        | some s => pure (rv1.map (fun e => e / s))
        | none => Except.error "unreachable: reduce of an empty array")
  let sorted := rv.enum.mergeSort (fun p q => decide (p.2 ≤ q.2))
  let cdist := cumulativeDist sorted 0
  match cdist.find? (fun p => decide (u < p.2)) with
  | some p => pure p.1
  | none => Except.error "The cumulative distribution is invalid"

/-- State-passing form of `GreedyRecommendationAlgorithm.recommend`: the
second component is the rated network after the call.  Every assignment in
the source body targets call-local arrays (the `cloneDeep` copy inside
`getRecommendationVector`, `recommendVector`, and the reduce accumulators);
no field of the argument network is ever assigned, so the embedding threads
the network through unchanged. -/
def greedyRecommendS (rn : RatedNetwork) : Option Nat × RatedNetwork :=
  (greedyRecommend rn, rn)

/-- State-passing form of `ProbabilisticRecommendationAlgorithm.recommend`:
as with the greedy variant, the source only writes to the local arrays
`recommendVector`, `distribution` (the sorted copy built by `Array.from`) and
`cdist`, never to the argument network, so the network passes through
unchanged. -/
def probRecommendS (u : ℚ) (rn : RatedNetwork) :
    Except String Nat × RatedNetwork :=
  (probRecommend u rn, rn)

/-- C7: `recommend` — greedy or probabilistic, the latter for any value of the
internal random draw — leaves the rated network it is given untouched: the
similarity network, rating vector and bounds after the call are the network
itself. -/
theorem recommend_does_not_mutate :
    ∀ (rn : RatedNetwork) (u : ℚ),
      (greedyRecommendS rn).2 = rn ∧ (probRecommendS u rn).2 = rn :=
  fun _ _ => ⟨rfl, rfl⟩

/-- Splitting a successful Node assertion off an `Except` chain. -/
lemma nodeAssert_bind_ok {α : Type} {c : Bool} {msg : String}
    {f : Unit → Except String α} {a : α}
    (h : (nodeAssert c msg).bind f = Except.ok a) :
    c = true ∧ f () = Except.ok a := by
  cases c
  · simp [nodeAssert, Except.bind] at h
  · exact ⟨rfl, h⟩

/-- Splitting any successful `Except` bind. -/
lemma except_bind_ok {α β : Type} {x : Except String α} {f : α → Except String β}
    {b : β} (h : x.bind f = Except.ok b) :
    ∃ a, x = Except.ok a ∧ f a = Except.ok b := by
  cases x with
  | error e => simp [Except.bind] at h
  | ok a => exact ⟨a, rfl, h⟩

/-- Every network the `RatedNetwork` constructor accepts satisfies `WF`: the
shape assertions are Node's throwing `assert`, so on success the matrix is a
nonempty square with a matching rating vector. -/
lemma mkRatedNetwork_WF {net : List (List ℚ)} {rats : List (Option ℚ)}
    {lower0 upper0 : Option ℚ} {rn : RatedNetwork}
    (h : mkRatedNetwork net rats lower0 upper0 = Except.ok rn) : WF rn := by
  unfold mkRatedNetwork at h
  obtain ⟨h1, h⟩ := nodeAssert_bind_ok h
  obtain ⟨h2, h⟩ := nodeAssert_bind_ok h
  obtain ⟨h3, h⟩ := nodeAssert_bind_ok h
  have hhead : (net.map List.length).head? = some net.length := beq_iff_eq.mp h2
  have hrows : ∀ row ∈ net, row.length = net.length := by
    intro row hrow
    have hmem : row.length ∈ net.map List.length := List.mem_map_of_mem _ hrow
    have hbeq : (net.map List.length).head? = some row.length :=
      beq_iff_eq.mp (List.all_eq_true.mp h1 _ hmem)
    rw [hhead] at hbeq
    exact (Option.some_inj.mp hbeq).symm
  have hlen : 1 ≤ net.length := by
    cases net with
    | nil => simp at hhead
    | cons r net => simp
  obtain ⟨lw, hlw, h⟩ := except_bind_ok h
  obtain ⟨up, hup, h⟩ := except_bind_ok h
  obtain ⟨h4, h⟩ := nodeAssert_bind_ok h
  obtain hr := Except.ok.inj h
  rw [← hr]
  refine ⟨rfl, hrows, ?_, hlen⟩
  exact beq_iff_eq.mp h3
